import Mathlib

/-!
Verification of the mutual k-nearest-neighbor graph construction
(`src/mknn.py`, `src/main.py`, `src/helper.py`).

The program is embedded shallowly:

* Distances are modelled as rationals (the Python code computes with
  floats; none of the checked claims depends on rounding).
* The external nearest-neighbor index (`scipy.spatial.KDTree`) is
  abstracted as a query function `q : obj -> m -> list of (distance, id)
  pairs`; a concrete model of the index for 1-D datasets, written from
  the interface description of the specification, is given further below
  for exhibiting concrete runs.
* The parallel workers of `main` are embedded sequentially in worker
  order: the orchestrator dispatches workers and then receives their
  results in dispatch order, so the merged table and the concatenated
  edge list are exactly the ones computed by the sequential embedding.
* Python exceptions (`KeyError`, `ValueError`, `ZeroDivisionError`) are
  embedded with `Except String`.
-/

/-- A NeighborRecord: the `(dists, indexs)` pair of parallel arrays that
`scipy.spatial.KDTree.query` returns, zipped into one list of
(distance, neighbor id) pairs, as stored in `dic_knn` (mknn.py:68-70). -/
abbrev Rec : Type := List (ℚ × ℕ)

/-- A weighted edge `(obj, nn, weight)` as appended to `ew`
(mknn.py:97). -/
abbrev Edge : Type := ℕ × ℕ × ℚ

/-- The neighbor ids of a record: `obj_knn[1]`, the second of the two
parallel arrays (mknn.py:89,93). -/
def recIds (r : Rec) : List ℕ := r.map Prod.snd

/-- mknn.py:70 - `dic_knn[obj] = (dic_knn[obj][0][1:], dic_knn[obj][1][1:])`:
the worker drops the FIRST entry of the query result unconditionally
(the comment on mknn.py:69 assumes the first nearest neighbor is the
point itself). -/
def knnRecord (qres : List (ℚ × ℕ)) : Rec := qres.drop 1

/-- mknn.py:53-72, function `knn`: for each object of the subset, query
the index for `k+1` results and store the record with the first result
dropped.  `data` and `kdtree` are abstracted into the query function
`q`; `sender.send dic_knn` is modelled by returning the association
list, in insertion order. -/
def knn (obj_subset : List ℕ) (q : ℕ → ℕ → List (ℚ × ℕ)) (k : ℕ) : List (ℕ × Rec) :=
  obj_subset.map (fun o => (o, knnRecord (q o (k + 1))))

/-- The record Phase 1 stores for object `o` (the value of
`dic_knn[o]` after the merge). -/
def recOf (q : ℕ → ℕ → List (ℚ × ℕ)) (k : ℕ) (o : ℕ) : Rec :=
  knnRecord (q o (k + 1))

/-- The merged `dic_knn` dictionary (mknn.py:170-174): successive
`dict.update` calls, a later binding of the same key winning, i.e.
lookup of the first match in the reversed association list. -/
def tableOf (prs : List (ℕ × Rec)) : ℕ → Option Rec :=
  fun n => prs.reverse.lookup n

/-- All Phase-1 worker outputs, concatenated in worker (partition)
order, exactly as the orchestrator receives them (mknn.py:161-174). -/
def phase1 (q : ℕ → ℕ → List (ℚ × ℕ)) (k : ℕ) (parts : List (List ℕ)) : List (ℕ × Rec) :=
  (parts.map (fun part => knn part q k)).flatten

/-- The inner loop of `mutual_knn` (mknn.py:89-97): iterate over the
entries of the record of `obj`; skip an entry whose id equals `obj`;
look the neighbor up in `dic_knn` (a missing key raises `KeyError`);
if `obj` occurs among the neighbor ids of that record, emit the edge
`(obj, nn, 1 / (1 + d1))` with `d1` the distance stored in the record
of `obj` itself. -/
def mutualEntries (dic : ℕ → Option Rec) (obj : ℕ) : List (ℚ × ℕ) → Except String (List Edge)
  | [] => Except.ok []
  | (d, nn) :: rest =>
    if obj = nn then mutualEntries dic obj rest
    else
      match dic nn with
      | none => Except.error "KeyError"
      | some nn_knn =>
        if obj ∈ recIds nn_knn then
          match mutualEntries dic obj rest with
          | Except.error e => Except.error e
          | Except.ok es => Except.ok ((obj, nn, 1 / (1 + d)) :: es)
        else mutualEntries dic obj rest

/-- mknn.py:74-99, function `mutual_knn`: the per-worker edge list `ew`,
in emission order.  The unused parameter `k` of the Python function is
omitted; `sender.send ew` is modelled by returning the list. -/
def mutual_knn : List ℕ → (ℕ → Option Rec) → Except String (List Edge)
  | [], _ => Except.ok []
  | o :: os, dic =>
    match dic o with
    | none => Except.error "KeyError"
    | some r =>
      match mutualEntries dic o r with
      | Except.error e => Except.error e
      | Except.ok es =>
        match mutual_knn os dic with
        | Except.error e => Except.error e
        | Except.ok rest => Except.ok (es ++ rest)

/-- Phase 2 (mknn.py:177-191): one `mutual_knn` worker per partition,
each handed the complete merged table; the per-worker edge lists are
concatenated in worker order into the final edge list. -/
def phase2 : List (List ℕ) → (ℕ → Option Rec) → Except String (List Edge)
  | [], _ => Except.ok []
  | part :: ps, dic =>
    match mutual_knn part dic with
    | Except.error e => Except.error e
    | Except.ok es =>
      match phase2 ps dic with
      | Except.error e => Except.error e
      | Except.ok rest => Except.ok (es ++ rest)

/-- The Python slice `obj_set[i : i + p]` with `obj_set = range(0, N)`
(mknn.py:152,165). -/
def objSlice (N i p : ℕ) : List ℕ := ((List.range N).drop i).take p

/-- The loop indices of `xrange(0, N, p)` for a positive step `p`
(mknn.py:162,178): the multiples of `p` below `N`, of which there are
`ceil(N / p)`. -/
def partStarts (N p : ℕ) : List ℕ := (List.range ((N + p - 1) / p)).map (· * p)

/-- The partitions of `[0, N)` handed to the workers of either phase
(mknn.py:162-165): one slice of length `p` per loop index of
`xrange(0, N, p)`. -/
def partitions (N p : ℕ) : List (List ℕ) := (partStarts N p).map (fun i => objSlice N i p)

/-- The core of `main` (mknn.py:151-191), from `obj_count` to the final
edge list.  `part = obj_count / options.threads` is Python-2 floor
division of ints, `Int.fdiv`; a zero thread count raises
`ZeroDivisionError` there.  For a negative step, `xrange(0, N, step)` is
empty, so no worker of either phase is spawned and the edge list stays
empty; for a zero step (`threads > obj_count`), `xrange` raises
`ValueError`.  For a positive step, Phase 1 runs over the partitions,
the results are merged into `dic_knn`, and only then Phase 2 runs over
the same partitions against the complete table. -/
def pipeline (q : ℕ → ℕ → List (ℚ × ℕ)) (N k : ℕ) (t : ℤ) : Except String (List Edge) :=
  if t = 0 then Except.error "ZeroDivisionError"
  else
    let p : ℤ := Int.fdiv N t
    if 0 < p then
      phase2 (partitions N p.toNat) (tableOf (phase1 q k (partitions N p.toNat)))
    else if p < 0 then Except.ok []
    else Except.error "ValueError"

/-! ### Partition and table lemmas -/

theorem chunks_flatten {α : Type} (p : ℕ) (l : List α) :
    ∀ c : ℕ, ((List.range c).map (fun i => (l.drop (i * p)).take p)).flatten = l.take (c * p) := by
  intro c
  induction c with
  | zero => simp
  | succ c ih =>
    rw [List.range_succ, List.map_append, List.flatten_append, ih]
    simp [Nat.succ_mul, List.take_add]

theorem ceil_div_eq_low (N p : ℕ) (hp : 0 < p) (h0 : N % p = 0) :
    (N + p - 1) / p = N / p := by
  have hq := Nat.div_add_mod N p
  have hsmall : (p - 1) / p = 0 := Nat.div_eq_of_lt (by omega)
  have hsum : N + p - 1 = p * (N / p) + (p - 1) := by omega
  rw [hsum, Nat.mul_add_div hp, hsmall]
  omega

theorem ceil_div_eq_high (N p : ℕ) (hp : 0 < p) (h0 : N % p ≠ 0) :
    (N + p - 1) / p = N / p + 1 := by
  have hq := Nat.div_add_mod N p
  have hrp : N % p < p := Nat.mod_lt _ hp
  have hsmall : (N % p - 1) / p = 0 := Nat.div_eq_of_lt (by omega)
  have hexp : p * (N / p + 1) = p * (N / p) + p := by ring
  have hsum : N + p - 1 = p * (N / p + 1) + (N % p - 1) := by omega
  rw [hsum, Nat.mul_add_div hp, hsmall]

theorem ceil_div_ge_mul (N p : ℕ) (hp : 0 < p) : N ≤ (N + p - 1) / p * p := by
  have hq := Nat.div_add_mod N p
  have hrp : N % p < p := Nat.mod_lt _ hp
  by_cases h0 : N % p = 0
  · rw [ceil_div_eq_low N p hp h0]
    have e2 : N / p * p = p * (N / p) := by ring
    omega
  · rw [ceil_div_eq_high N p hp h0]
    have e1 : (N / p + 1) * p = p * (N / p) + p := by ring
    omega

theorem ceil_div_pred_mul_lt (N p : ℕ) (hp : 0 < p) (hN : 0 < N) :
    ((N + p - 1) / p - 1) * p < N := by
  have hq := Nat.div_add_mod N p
  have hrp : N % p < p := Nat.mod_lt _ hp
  by_cases h0 : N % p = 0
  · rw [ceil_div_eq_low N p hp h0]
    have hpN : p ≤ N := by
      by_contra h
      push_neg at h
      rw [Nat.mod_eq_of_lt h] at h0
      omega
    have hq1 : 0 < N / p := Nat.div_pos hpN hp
    have e3 : (N / p - 1) * p = N / p * p - 1 * p := Nat.sub_mul _ _ _
    have e2 : N / p * p = p * (N / p) := by ring
    omega
  · rw [ceil_div_eq_high N p hp h0]
    have e4 : (N / p + 1 - 1) * p = N / p * p := by norm_num
    have e2 : N / p * p = p * (N / p) := by ring
    omega

theorem partitions_flatten (N p : ℕ) (hp : 0 < p) :
    (partitions N p).flatten = List.range N := by
  unfold partitions partStarts objSlice
  rw [List.map_map]
  have : ((fun i => ((List.range N).drop i).take p) ∘ (· * p))
      = fun i => ((List.range N).drop (i * p)).take p := rfl
  rw [this, chunks_flatten]
  exact List.take_of_length_le (by simpa using ceil_div_ge_mul N p hp)

theorem phase1_eq (q : ℕ → ℕ → List (ℚ × ℕ)) (k : ℕ) (parts : List (List ℕ)) :
    phase1 q k parts = parts.flatten.map (fun o => (o, recOf q k o)) := by
  unfold phase1 knn
  induction parts with
  | nil => simp
  | cons part ps ih => simp_all [recOf]

theorem lookup_pairs {β : Type} (f : ℕ → β) (o : ℕ) :
    ∀ l : List ℕ, o ∈ l → (l.map (fun x => (x, f x))).lookup o = some (f o) := by
  intro l
  induction l with
  | nil => simp
  | cons x xs ih =>
    intro hmem
    by_cases hx : o = x
    · subst hx; simp [List.lookup]
    · have : o ∈ xs := by
        rcases List.mem_cons.mp hmem with h | h
        · exact absurd h hx
        · exact h
      simp [List.lookup, beq_false_of_ne hx, ih this]

theorem tableOf_total (q : ℕ → ℕ → List (ℚ × ℕ)) (k : ℕ) (parts : List (List ℕ)) (N o : ℕ)
    (hcov : parts.flatten = List.range N) (ho : o < N) :
    tableOf (phase1 q k parts) o = some (recOf q k o) := by
  unfold tableOf
  rw [phase1_eq, hcov, ← List.map_reverse]
  exact lookup_pairs (recOf q k) o _ (by simpa using ho)

/-! ### Characterization of the Phase-2 edge list -/

theorem mutualEntries_ok (dic : ℕ → Option Rec) (obj : ℕ) (r : List (ℚ × ℕ))
    (hvalid : ∀ e ∈ r, (dic e.2).isSome ∨ e.2 = obj) :
    ∃ es, mutualEntries dic obj r = Except.ok es ∧
      ∀ x, x ∈ es ↔ ∃ d nn rn, (d, nn) ∈ r ∧ obj ≠ nn ∧ dic nn = some rn ∧
        obj ∈ recIds rn ∧ x = (obj, nn, 1 / (1 + d)) := by
  induction r with
  | nil => exact ⟨[], rfl, by simp [mutualEntries]⟩
  | cons e rest ih =>
    obtain ⟨d, nn⟩ := e
    have hrest : ∀ e ∈ rest, (dic e.2).isSome ∨ e.2 = obj :=
      fun e he => hvalid e (List.mem_cons_of_mem _ he)
    obtain ⟨es, hes, hmem⟩ := ih hrest
    by_cases hobj : obj = nn
    · refine ⟨es, ?_, fun x => ?_⟩
      · simp only [mutualEntries, if_pos hobj]
        exact hes
      rw [hmem x]
      constructor
      · rintro ⟨d1, nn1, rn, h1, h2, h3, h4, h5⟩
        exact ⟨d1, nn1, rn, List.mem_cons_of_mem _ h1, h2, h3, h4, h5⟩
      · rintro ⟨d1, nn1, rn, h1, h2, h3, h4, h5⟩
        rcases List.mem_cons.mp h1 with h | h
        · have : nn1 = nn := congrArg Prod.snd h
          exact absurd (this ▸ hobj) h2
        · exact ⟨d1, nn1, rn, h, h2, h3, h4, h5⟩
    · have hsome : (dic nn).isSome := by
        rcases hvalid (d, nn) (List.mem_cons_self _ _) with h | h
        · exact h
        · exact absurd h.symm hobj
      obtain ⟨rn, hrn⟩ := Option.isSome_iff_exists.mp hsome
      by_cases hin : obj ∈ recIds rn
      · refine ⟨(obj, nn, 1 / (1 + d)) :: es, ?_, fun x => ?_⟩
        · simp [mutualEntries, hobj, hrn, hin, hes]
        · simp only [List.mem_cons]
          constructor
          · rintro (rfl | hx)
            · exact ⟨d, nn, rn, Or.inl rfl, hobj, hrn, hin, rfl⟩
            · obtain ⟨d1, nn1, rn1, h1, h2, h3, h4, h5⟩ := (hmem x).mp hx
              exact ⟨d1, nn1, rn1, Or.inr h1, h2, h3, h4, h5⟩
          · rintro ⟨d1, nn1, rn1, h1, h2, h3, h4, h5⟩
            rcases h1 with h | h
            · left
              have hd : d1 = d := congrArg Prod.fst h
              have hn : nn1 = nn := congrArg Prod.snd h
              subst hd hn
              exact h5
            · right
              exact (hmem x).mpr ⟨d1, nn1, rn1, h, h2, h3, h4, h5⟩
      · refine ⟨es, by simp [mutualEntries, hobj, hrn, hin, hes], fun x => ?_⟩
        rw [hmem x]
        constructor
        · rintro ⟨d1, nn1, rn1, h1, h2, h3, h4, h5⟩
          exact ⟨d1, nn1, rn1, List.mem_cons_of_mem _ h1, h2, h3, h4, h5⟩
        · rintro ⟨d1, nn1, rn1, h1, h2, h3, h4, h5⟩
          rcases List.mem_cons.mp h1 with h | h
          · have hn : nn1 = nn := congrArg Prod.snd h
            subst hn
            rw [hrn] at h3
            cases h3
            exact absurd h4 hin
          · exact ⟨d1, nn1, rn1, h, h2, h3, h4, h5⟩

theorem mutual_knn_ok (objs : List ℕ) (dic : ℕ → Option Rec)
    (hobj : ∀ o ∈ objs, ∃ r, dic o = some r ∧ ∀ e ∈ r, (dic e.2).isSome ∨ e.2 = o) :
    ∃ ew, mutual_knn objs dic = Except.ok ew ∧
      ∀ x, x ∈ ew ↔ ∃ o ∈ objs, ∃ r, dic o = some r ∧
        ∃ d nn rn, (d, nn) ∈ r ∧ o ≠ nn ∧ dic nn = some rn ∧
          o ∈ recIds rn ∧ x = (o, nn, 1 / (1 + d)) := by
  induction objs with
  | nil => exact ⟨[], rfl, by simp⟩
  | cons o os ih =>
    obtain ⟨r, hr, hvalid⟩ := hobj o (List.mem_cons_self _ _)
    obtain ⟨es, hes, hesmem⟩ := mutualEntries_ok dic o r hvalid
    obtain ⟨ew, hew, hewmem⟩ := ih (fun o ho => hobj o (List.mem_cons_of_mem _ ho))
    refine ⟨es ++ ew, by simp [mutual_knn, hr, hes, hew], fun x => ?_⟩
    rw [List.mem_append, hesmem x, hewmem x]
    constructor
    · rintro (⟨d, nn, rn, h1, h2, h3, h4, h5⟩ | ⟨o1, ho1, hrest⟩)
      · exact ⟨o, List.mem_cons_self _ _, r, hr, d, nn, rn, h1, h2, h3, h4, h5⟩
      · exact ⟨o1, List.mem_cons_of_mem _ ho1, hrest⟩
    · rintro ⟨o1, ho1, r1, hr1, d, nn, rn, h1, h2, h3, h4, h5⟩
      rcases List.mem_cons.mp ho1 with h | h
      · subst h
        rw [hr] at hr1
        cases hr1
        exact Or.inl ⟨d, nn, rn, h1, h2, h3, h4, h5⟩
      · exact Or.inr ⟨o1, h, r1, hr1, d, nn, rn, h1, h2, h3, h4, h5⟩

theorem phase2_ok (parts : List (List ℕ)) (dic : ℕ → Option Rec)
    (hobj : ∀ o ∈ parts.flatten, ∃ r, dic o = some r ∧ ∀ e ∈ r, (dic e.2).isSome ∨ e.2 = o) :
    ∃ ew, phase2 parts dic = Except.ok ew ∧
      ∀ x, x ∈ ew ↔ ∃ o ∈ parts.flatten, ∃ r, dic o = some r ∧
        ∃ d nn rn, (d, nn) ∈ r ∧ o ≠ nn ∧ dic nn = some rn ∧
          o ∈ recIds rn ∧ x = (o, nn, 1 / (1 + d)) := by
  induction parts with
  | nil => exact ⟨[], rfl, by simp⟩
  | cons part ps ih =>
    have hpart : ∀ o ∈ part, ∃ r, dic o = some r ∧ ∀ e ∈ r, (dic e.2).isSome ∨ e.2 = o :=
      fun o ho => hobj o (by simp [ho])
    obtain ⟨es, hes, hesmem⟩ := mutual_knn_ok part dic hpart
    obtain ⟨ew, hew, hewmem⟩ := ih (fun o ho => hobj o (by simp [ho]))
    refine ⟨es ++ ew, by simp [phase2, hes, hew], fun x => ?_⟩
    rw [List.mem_append, hesmem x, hewmem x]
    constructor
    · rintro (⟨o, ho, rest⟩ | ⟨o, ho, rest⟩)
      · exact ⟨o, by simp [ho], rest⟩
      · exact ⟨o, by simp [ho], rest⟩
    · rintro ⟨o, ho, rest⟩
      rcases List.mem_flatten.mp ho with ⟨l, hl, hol⟩
      rcases List.mem_cons.mp hl with h | h
      · exact Or.inl ⟨o, h ▸ hol, rest⟩
      · exact Or.inr ⟨o, List.mem_flatten.mpr ⟨l, h, hol⟩, rest⟩

theorem mem_recIds {r : List (ℚ × ℕ)} {n : ℕ} : n ∈ recIds r ↔ ∃ d, (d, n) ∈ r := by
  unfold recIds
  constructor
  · intro h
    obtain ⟨⟨d, n1⟩, hm, he⟩ := List.mem_map.mp h
    exact ⟨d, by simpa using he ▸ hm⟩
  · rintro ⟨d, h⟩
    exact List.mem_map_of_mem _ h

theorem pipeline_pos (q : ℕ → ℕ → List (ℚ × ℕ)) (N k T : ℕ) (hT : 0 < T) (hTN : T ≤ N) :
    pipeline q N k T =
      phase2 (partitions N (N / T)) (tableOf (phase1 q k (partitions N (N / T)))) := by
  have hp : 0 < N / T := Nat.div_pos hTN hT
  have ht0 : (T : ℤ) ≠ 0 := by
    simp only [ne_eq, Nat.cast_eq_zero]
    omega
  have hfd : Int.fdiv (N : ℤ) (T : ℤ) = ((N / T : ℕ) : ℤ) := (Int.ofNat_fdiv N T).symm
  unfold pipeline
  rw [if_neg ht0]
  simp only [hfd, Int.toNat_natCast]
  rw [if_pos (by exact_mod_cast hp)]

theorem pipeline_run (q : ℕ → ℕ → List (ℚ × ℕ)) (N k T : ℕ) (hT : 0 < T) (hTN : T ≤ N)
    (hids : ∀ o, o < N → ∀ nn ∈ recIds (recOf q k o), nn < N) :
    ∃ ew, pipeline q N k T = Except.ok ew ∧
      ∀ x, x ∈ ew ↔ ∃ o, o < N ∧ ∃ d nn, (d, nn) ∈ recOf q k o ∧ o ≠ nn ∧
        o ∈ recIds (recOf q k nn) ∧ x = (o, nn, 1 / (1 + d)) := by
  have hp : 0 < N / T := Nat.div_pos hTN hT
  have hcov : (partitions N (N / T)).flatten = List.range N := partitions_flatten N (N / T) hp
  have htab : ∀ o, o < N →
      tableOf (phase1 q k (partitions N (N / T))) o = some (recOf q k o) :=
    fun o ho => tableOf_total q k _ N o hcov ho
  have hobj : ∀ o ∈ (partitions N (N / T)).flatten,
      ∃ r, tableOf (phase1 q k (partitions N (N / T))) o = some r ∧
        ∀ e ∈ r, ((tableOf (phase1 q k (partitions N (N / T)))) e.2).isSome ∨ e.2 = o := by
    intro o ho
    rw [hcov, List.mem_range] at ho
    refine ⟨recOf q k o, htab o ho, fun e he => Or.inl ?_⟩
    obtain ⟨d, nn⟩ := e
    have hnn : nn < N := hids o ho nn (mem_recIds.mpr ⟨d, he⟩)
    rw [htab nn hnn]
    rfl
  obtain ⟨ew, hew, hmem⟩ := phase2_ok _ _ hobj
  refine ⟨ew, by rw [pipeline_pos q N k T hT hTN]; exact hew, fun x => ?_⟩
  rw [hmem x]
  constructor
  · rintro ⟨o, ho, r, hr, d, nn, rn, h1, h2, h3, h4, h5⟩
    rw [hcov, List.mem_range] at ho
    rw [htab o ho] at hr
    cases hr
    have hnnN : nn < N := hids o ho nn (mem_recIds.mpr ⟨d, h1⟩)
    rw [htab nn hnnN] at h3
    cases h3
    exact ⟨o, ho, d, nn, h1, h2, h4, h5⟩
  · rintro ⟨o, ho, d, nn, h1, h2, h4, h5⟩
    have hnnN : nn < N := hids o ho nn (mem_recIds.mpr ⟨d, h1⟩)
    exact ⟨o, by rw [hcov]; exact List.mem_range.mpr ho, recOf q k o, htab o ho,
      d, nn, recOf q k nn, h1, h2, htab nn hnnN, h4, h5⟩

/-! ### Claim theorems: mutuality, barrier, weights, reverse edges -/

/-- C1: for a run of the pipeline (positive thread count not exceeding
the object count, index returning valid ids), an edge `(u, v, w)`
appears in the output edge list for some weight `w` if and only if `v`
is among the stored neighbor ids of `u` and `u` is among the stored
neighbor ids of `v`; the mutuality test consults only the neighbor ids,
never the distances. -/
theorem mutual_edge_iff (q : ℕ → ℕ → List (ℚ × ℕ)) (N k T : ℕ) (hT : 0 < T) (hTN : T ≤ N)
    (hids : ∀ o, o < N → ∀ nn ∈ recIds (recOf q k o), nn < N) :
    ∃ ew, pipeline q N k T = Except.ok ew ∧ ∀ u v, u < N → v < N → u ≠ v →
      ((∃ w, (u, v, w) ∈ ew) ↔ (v ∈ recIds (recOf q k u) ∧ u ∈ recIds (recOf q k v))) := by
  obtain ⟨ew, hew, hmem⟩ := pipeline_run q N k T hT hTN hids
  refine ⟨ew, hew, fun u v hu hv huv => ?_⟩
  constructor
  · rintro ⟨w, hw⟩
    obtain ⟨o, ho, d, nn, h1, h2, h4, h5⟩ := (hmem _).mp hw
    have hou : o = u := (congrArg Prod.fst h5).symm
    have hnv : nn = v := (congrArg (fun e => e.2.1) h5).symm
    subst hou hnv
    exact ⟨mem_recIds.mpr ⟨d, h1⟩, h4⟩
  · rintro ⟨hvu, huv2⟩
    obtain ⟨d, hdv⟩ := mem_recIds.mp hvu
    exact ⟨1 / (1 + d), (hmem _).mpr ⟨u, hu, d, v, hdv, huv, huv2, rfl⟩⟩

/-- Witness for C1 on a concrete two-point run. -/
def cq : ℕ → ℕ → List (ℚ × ℕ) := fun o _ => if o = 0 then [(0, 0), (1, 1)] else [(0, 1), (1, 0)]

theorem mutual_edge_iff_witness :
    ∃ ew, pipeline cq 2 1 1 = Except.ok ew ∧
      ((∃ w, (0, 1, w) ∈ ew) ↔ (1 ∈ recIds (recOf cq 1 0) ∧ 0 ∈ recIds (recOf cq 1 1))) := by
  obtain ⟨ew, h1, h2⟩ := mutual_edge_iff cq 2 1 1 (by decide) (by decide) (by decide)
  exact ⟨ew, h1, h2 0 1 (by decide) (by decide) (by decide)⟩

/-- C4: with a positive thread count not exceeding the object count,
the partitions cover `[0, N)` exactly once each; the merged table built
from all Phase-1 worker outputs is total (an entry for every object id
below `N`, namely the record of that object); and the pipeline hands
Phase 2 exactly this complete table, i.e. the merge of all Phase-1
outputs happens before any Phase-2 work (in the sequential embedding of
the orchestrator, which receives every Phase-1 result before
dispatching Phase 2). -/
theorem barrier_table_total (q : ℕ → ℕ → List (ℚ × ℕ)) (N k T : ℕ) (hT : 0 < T) (hTN : T ≤ N) :
    (partitions N (N / T)).flatten = List.range N ∧
    (∀ o, o < N → tableOf (phase1 q k (partitions N (N / T))) o = some (recOf q k o)) ∧
    pipeline q N k T =
      phase2 (partitions N (N / T)) (tableOf (phase1 q k (partitions N (N / T)))) :=
  ⟨partitions_flatten _ _ (Nat.div_pos hTN hT),
   fun o ho => tableOf_total q k _ N o (partitions_flatten _ _ (Nat.div_pos hTN hT)) ho,
   pipeline_pos q N k T hT hTN⟩

theorem barrier_table_total_witness :
    (partitions 2 (2 / 1)).flatten = List.range 2 ∧
    tableOf (phase1 cq 1 (partitions 2 (2 / 1))) 0 = some (recOf cq 1 0) ∧
    pipeline cq 2 1 1 =
      phase2 (partitions 2 (2 / 1)) (tableOf (phase1 cq 1 (partitions 2 (2 / 1)))) := by
  obtain ⟨h1, h2, h3⟩ := barrier_table_total cq 2 1 1 (by decide) (by decide)
  exact ⟨h1, h2 0 (by decide), h3⟩

/-- C5: every edge of the output list carries weight `1 / (1 + d)`
where `d` is a distance recorded for that neighbor in the record of the
edge's FIRST endpoint (its own record), and whenever the recorded
distance is nonnegative the weight lies in the half-open interval
`(0, 1]`. -/
theorem weight_formula_range (q : ℕ → ℕ → List (ℚ × ℕ)) (N k T : ℕ) (hT : 0 < T) (hTN : T ≤ N)
    (hids : ∀ o, o < N → ∀ nn ∈ recIds (recOf q k o), nn < N) :
    ∃ ew, pipeline q N k T = Except.ok ew ∧ ∀ p n w, (p, n, w) ∈ ew →
      ∃ d, (d, n) ∈ recOf q k p ∧ w = 1 / (1 + d) ∧ (0 ≤ d → 0 < w ∧ w ≤ 1) := by
  obtain ⟨ew, hew, hmem⟩ := pipeline_run q N k T hT hTN hids
  refine ⟨ew, hew, fun p n w hw => ?_⟩
  obtain ⟨o, ho, d, nn, h1, h2, h4, h5⟩ := (hmem _).mp hw
  have hop : o = p := (congrArg Prod.fst h5).symm
  have hnn : nn = n := (congrArg (fun e => e.2.1) h5).symm
  have hwd : w = 1 / (1 + d) := congrArg (fun e => e.2.2) h5
  subst hop hnn
  refine ⟨d, h1, hwd, fun hd => ?_⟩
  have h1d : (0 : ℚ) < 1 + d := by linarith
  constructor
  · rw [hwd]
    positivity
  · rw [hwd, div_le_one h1d]
    linarith

theorem weight_formula_range_witness :
    ∃ ew, pipeline cq 2 1 1 = Except.ok ew ∧ ((0, 1, (1 : ℚ) / 2) ∈ ew →
      ∃ d, (d, 1) ∈ recOf cq 1 0 ∧ (1 : ℚ) / 2 = 1 / (1 + d) ∧
        (0 ≤ d → 0 < (1 : ℚ) / 2 ∧ (1 : ℚ) / 2 ≤ 1)) := by
  obtain ⟨ew, h1, h2⟩ := weight_formula_range cq 2 1 1 (by decide) (by decide) (by decide)
  exact ⟨ew, h1, h2 0 1 ((1 : ℚ) / 2)⟩

/-- C9: the output is not deduplicated across directions: whenever
`(u, v, w)` is in the output list, a reverse entry `(v, u, w2)` is in
it as well, with `w2` computed from a distance recorded for `u` in the
record of `v` itself (possibly different from `w`), and the two entries
are distinct tuples. -/
theorem reverse_edge_emitted (q : ℕ → ℕ → List (ℚ × ℕ)) (N k T : ℕ) (hT : 0 < T) (hTN : T ≤ N)
    (hids : ∀ o, o < N → ∀ nn ∈ recIds (recOf q k o), nn < N) :
    ∃ ew, pipeline q N k T = Except.ok ew ∧ ∀ u v w, (u, v, w) ∈ ew →
      ∃ w2 d, (v, u, w2) ∈ ew ∧ (d, u) ∈ recOf q k v ∧ w2 = 1 / (1 + d) ∧
        (u, v, w) ≠ (v, u, w2) := by
  obtain ⟨ew, hew, hmem⟩ := pipeline_run q N k T hT hTN hids
  refine ⟨ew, hew, fun u v w hw => ?_⟩
  obtain ⟨o, ho, d, nn, h1, h2, h4, h5⟩ := (hmem _).mp hw
  obtain ⟨rfl, rfl, rfl⟩ : u = o ∧ v = nn ∧ w = 1 / (1 + d) :=
    ⟨congrArg Prod.fst h5, congrArg (fun e => e.2.1) h5, congrArg (fun e => e.2.2) h5⟩
  have hvN : v < N := hids u ho v (mem_recIds.mpr ⟨d, h1⟩)
  obtain ⟨d2, hd2⟩ := mem_recIds.mp h4
  refine ⟨1 / (1 + d2), d2,
    (hmem _).mpr ⟨v, hvN, d2, u, hd2, fun h => h2 h.symm, mem_recIds.mpr ⟨d, h1⟩, rfl⟩,
    hd2, rfl, fun heq => h2 (congrArg Prod.fst heq)⟩

theorem reverse_edge_emitted_witness :
    ∃ ew, pipeline cq 2 1 1 = Except.ok ew ∧ ((0, 1, (1 : ℚ) / 2) ∈ ew →
      ∃ w2 d, (1, 0, w2) ∈ ew ∧ (d, 0) ∈ recOf cq 1 1 ∧ w2 = 1 / (1 + d) ∧
        (0, 1, (1 : ℚ) / 2) ≠ (1, 0, w2)) := by
  obtain ⟨ew, h1, h2⟩ := reverse_edge_emitted cq 2 1 1 (by decide) (by decide) (by decide)
  exact ⟨ew, h1, h2 0 1 ((1 : ℚ) / 2)⟩

/-! ### C3: how many partitions the loop really creates -/

/-- C3 counterexample: with 10 objects and 4 threads the step is
`10 fdiv 4 = 2` and `xrange(0, 10, 2)` spawns 5 workers per phase, not
the 4 contiguous ranges (with the last absorbing the remainder) the
claim describes; in particular more than `T` worker tasks run. -/
theorem partitions_count_cex :
    (partitions 10 (Int.fdiv 10 4).toNat).length = 5 ∧
    ¬(partitions 10 (Int.fdiv 10 4).toNat).length ≤ 4 := by decide

/-- C3 amended: for `0 < T ≤ N` the work is split into `ceil(N / p)`
contiguous ranges where `p = N / T` rounded down; every range except
possibly the last has size `p`, the last has size `N - (count - 1) * p`,
and no range is empty — but the number of ranges (and hence of worker
tasks per phase) is `ceil(N / p)`, which can exceed `T`.  When `T > N`
the step is `0` and the loop construction fails (`ValueError`), rather
than producing fewer non-empty ranges. -/
theorem partitions_sizes (N T : ℕ) (hT : 0 < T) :
    (T ≤ N →
      (partitions N (N / T)).length = (N + N / T - 1) / (N / T) ∧
      (∀ i, (h : i < (partitions N (N / T)).length) →
        0 < ((partitions N (N / T))[i]).length ∧
        ((partitions N (N / T))[i]).length =
          if i + 1 < (partitions N (N / T)).length then N / T
          else N - i * (N / T))) ∧
    (N < T → ∀ q k, pipeline q N k T = Except.error "ValueError") := by
  constructor
  · intro hTN
    have hp : 0 < N / T := Nat.div_pos hTN hT
    have hN : 0 < N := lt_of_lt_of_le hT hTN
    set p := N / T with hpdef
    set c := (N + p - 1) / p with hcdef
    have hlen : (partitions N p).length = c := by
      simp [partitions, partStarts, hcdef]
    refine ⟨hlen, fun i h => ?_⟩
    have hic : i < c := by rw [hlen] at h; exact h
    have hget : (partitions N p)[i] = objSlice N (i * p) p := by
      simp [partitions, partStarts]
    have hlen2 : ((partitions N p)[i]).length = min p (N - i * p) := by
      rw [hget]
      simp [objSlice]
    have hcp : N ≤ c * p := ceil_div_ge_mul N p hp
    have hcp2 : (c - 1) * p < N := ceil_div_pred_mul_lt N p hp hN
    rw [hlen2, hlen]
    by_cases hlast : i + 1 < c
    · rw [if_pos hlast]
      have hmul : (i + 1) * p ≤ (c - 1) * p := Nat.mul_le_mul_right p (by omega)
      have e1 : (i + 1) * p = i * p + p := by ring
      have hple : p ≤ N - i * p := by omega
      rw [Nat.min_eq_left hple]
      exact ⟨hp, rfl⟩
    · rw [if_neg hlast]
      have hi : i = c - 1 := by omega
      subst hi
      have hc1 : c - 1 + 1 = c := by omega
      have e2 : (c - 1) * p + p = c * p := by
        calc (c - 1) * p + p = (c - 1 + 1) * p := by ring
        _ = c * p := by rw [hc1]
      have hle : N - (c - 1) * p ≤ p := by omega
      rw [Nat.min_eq_right hle]
      exact ⟨by omega, rfl⟩
  · intro hNT q k
    have ht0 : (T : ℤ) ≠ 0 := by
      simp only [ne_eq, Nat.cast_eq_zero]
      omega
    have hfd : Int.fdiv (N : ℤ) (T : ℤ) = ((N / T : ℕ) : ℤ) := (Int.ofNat_fdiv N T).symm
    have hz : N / T = 0 := Nat.div_eq_of_lt hNT
    unfold pipeline
    rw [if_neg ht0]
    simp [hfd, hz]

theorem partitions_sizes_witness :
    ((partitions 10 (10 / 4)).length = (10 + 10 / 4 - 1) / (10 / 4) ∧
      0 < ((partitions 10 (10 / 4)).get ⟨0, by decide⟩).length ∧
      pipeline (fun _ _ => []) 3 1 4 = Except.error "ValueError") := by
  obtain ⟨ha, hb⟩ := partitions_sizes 10 4 (by decide)
  obtain ⟨h1, h2⟩ := ha (by decide)
  obtain ⟨hc, hd⟩ := partitions_sizes 3 4 (by decide)
  exact ⟨h1, (h2 0 (by decide)).1, hd (by decide) (fun _ _ => []) 1⟩

/-! ### C7: what actually happens on invalid configurations -/

/-- C7: the code has no configuration validation.  With a negative
thread count the Python-2 floor division makes the `xrange` step
negative, both loops are empty, no worker is spawned, and the run
completes with an empty edge list instead of aborting; with a zero
thread count the division itself raises (a traceback, not a validation
message); `k >= N` is not checked anywhere before dispatch. -/
theorem no_validation_invalid_threads :
    (∀ q, pipeline q 5 3 (-1) = Except.ok []) ∧
    (∀ q, pipeline q 5 3 0 = Except.error "ZeroDivisionError") :=
  ⟨fun _ => rfl, fun _ => rfl⟩

/-! ### C2 and C6: what Phase 1 stores, versus the claimed record -/

/-- Modelled from the spec (section 4.2, NeighborComputer), for
comparison with `knnRecord`: drop the first query result if and only if
it is the queried object itself; otherwise drop the farthest (last)
result. -/
def specKnnRecord (p : ℕ) : List (ℚ × ℕ) → List (ℚ × ℕ)
  | [] => []
  | e :: rest => if e.2 = p then rest else (e :: rest).dropLast

/-- Absolute value of a rational, for 1-D distances. -/
def absQ (x : ℚ) : ℚ := if x < 0 then -x else x

/-- Modelled from the spec (section 6, NeighborIndex): the external
nearest-neighbor index over a 1-D dataset.  `query(x, m)` returns the
`m` closest points to `x` including the query point itself, as
(distance, id) pairs sorted by ascending distance, ties broken by
insertion (id) order. -/
def indexQuery (data : List ℚ) (x : ℚ) (m : ℕ) : List (ℚ × ℕ) :=
  (List.insertionSort (fun a b => a.1 < b.1 ∨ (a.1 = b.1 ∧ a.2 ≤ b.2))
    ((List.range data.length).map (fun i => (absQ (data.getD i 0 - x), i)))).take m

/-- The query the Phase-1 worker issues for object `o` (mknn.py:66-68):
query the index with the attribute row of `o`. -/
def dataQuery (data : List ℚ) (o m : ℕ) : List (ℚ × ℕ) :=
  indexQuery data (data.getD o 0) m

/-- C2 counterexample: dataset of two identical 1-D points, `k = 1`.
The `k+1 = 2` query results for object 1 are `[(0, 0), (0, 1)]` (the
duplicate point 0 ties at distance 0 and precedes the object itself in
id order).  The first result is NOT the object, so the claim says the
farthest is dropped, keeping `[(0, 0)]`; the code drops the first
result unconditionally and stores `[(0, 1)]` — which contains the
object itself, so the stored record is not the k closest points other
than the object. -/
theorem knn_drop_first_cex :
    dataQuery [0, 0] 1 2 = [(0, 0), (0, 1)] ∧
    knnRecord (dataQuery [0, 0] 1 2) = [(0, 1)] ∧
    specKnnRecord 1 (dataQuery [0, 0] 1 2) = [(0, 0)] ∧
    1 ∈ recIds (knnRecord (dataQuery [0, 0] 1 2)) := by
  norm_num [dataQuery, indexQuery, absQ, knnRecord, specKnnRecord, recIds,
    List.insertionSort, List.orderedInsert]

/-- C2 amended: the worker always drops the first of the `k+1` query
results, unconditionally; this coincides with the claimed rule exactly
when the first result is the queried object itself. -/
theorem knn_drop_first_amended (p : ℕ) (qres : List (ℚ × ℕ)) (d : ℚ)
    (hfirst : qres.head? = some (d, p)) :
    knnRecord qres = specKnnRecord p qres := by
  cases qres with
  | nil => simp at hfirst
  | cons e rest =>
    simp only [List.head?_cons, Option.some.injEq] at hfirst
    subst hfirst
    simp [knnRecord, specKnnRecord]

theorem knn_drop_first_amended_witness :
    knnRecord [((0 : ℚ), 3), (1, 5)] = specKnnRecord 3 [((0 : ℚ), 3), (1, 5)] :=
  knn_drop_first_amended 3 _ 0 rfl

/-- C6 counterexample: dataset of two identical 1-D points, `k = 1 <
N = 2`: the record stored for object 1 has an entry equal to object 1
itself, contradicting the claim that no entry equals the object's own
id.  (This is exactly why `mutual_knn` carries the `obj == nn`
skip.) -/
theorem record_self_cex :
    (knnRecord (dataQuery [0, 0] 1 (1 + 1))).length = 1 ∧
    1 ∈ recIds (knnRecord (dataQuery [0, 0] 1 (1 + 1))) := by
  norm_num [dataQuery, indexQuery, absQ, knnRecord, recIds,
    List.insertionSort, List.orderedInsert]

/-- C6 amended: when the index returns `k+1` results sorted by
non-decreasing distance, with pairwise distinct ids, and the FIRST
result is the queried object itself (which holds whenever no other
point ties with it at distance 0, e.g. for pairwise distinct points),
the stored record has exactly `k` entries, none equal to the object,
sorted by non-decreasing distance. -/
theorem record_invariants (o k : ℕ) (qres : List (ℚ × ℕ))
    (hlen : qres.length = k + 1)
    (hsorted : qres.Pairwise (fun a b => a.1 ≤ b.1))
    (hnodup : (qres.map Prod.snd).Nodup)
    (hfirst : ∃ d, qres.head? = some (d, o)) :
    (knnRecord qres).length = k ∧
    o ∉ recIds (knnRecord qres) ∧
    (knnRecord qres).Pairwise (fun a b => a.1 ≤ b.1) := by
  obtain ⟨d, hd⟩ := hfirst
  cases qres with
  | nil => simp at hd
  | cons e rest =>
    simp only [List.head?_cons, Option.some.injEq] at hd
    subst hd
    refine ⟨?_, ?_, ?_⟩
    · simpa [knnRecord] using hlen
    · simp only [List.map_cons, List.nodup_cons] at hnodup
      simpa [knnRecord, recIds] using hnodup.1
    · exact (List.pairwise_cons.mp hsorted).2

theorem record_invariants_witness :
    (knnRecord [((0 : ℚ), 0), (1, 1)]).length = 1 ∧
    0 ∉ recIds (knnRecord [((0 : ℚ), 0), (1, 1)]) ∧
    (knnRecord [((0 : ℚ), 0), (1, 1)]).Pairwise (fun a b => a.1 ≤ b.1) :=
  record_invariants 0 1 _ (by decide) (by decide) (by decide) ⟨0, rfl⟩

/-! ### The graph writers (src/helper.py) -/

/-- Python `str.split(sep)` for a one-character separator: split at
every occurrence, keeping empty pieces (so a trailing separator yields
a trailing empty piece, and splitting the empty string yields one empty
piece). -/
def pySplit (c : Char) : List Char → List (List Char)
  | [] => [[]]
  | x :: xs =>
    match pySplit c xs with
    | [] => [[]]
    | r :: rs => if x = c then [] :: r :: rs else (x :: r) :: rs

/-- The ten decimal digit characters. -/
def decChars : List Char := ['0', '1', '2', '3', '4', '5', '6', '7', '8', '9']

/-- The digit character of a decimal digit value. -/
def digCh (d : ℕ) : Char := decChars.getD d '0'

/-- Python `str(n)` for a natural number: decimal digits, most
significant first. -/
def natStr (n : ℕ) : List Char :=
  if n = 0 then ['0'] else ((Nat.digits 10 n).map digCh).reverse

/-- Python `str(z)` for an int: a minus sign followed by the digits
when negative. -/
def intStr (z : ℤ) : List Char :=
  if z < 0 then '-' :: natStr z.natAbs else natStr z.toNat

/-- The whitespace characters Python `int()` strips. -/
def pyWS : List Char := [' ', '\t', '\n', '\r', '\x0b', '\x0c']

/-- Strip leading and trailing Python whitespace. -/
def stripWS (l : List Char) : List Char :=
  ((l.dropWhile (fun ch => decide (ch ∈ pyWS))).reverse.dropWhile
    (fun ch => decide (ch ∈ pyWS))).reverse

/-- Is this a decimal digit character? -/
def isDig (ch : Char) : Bool := decide (ch ∈ decChars)

/-- The value of a nonempty all-digit string. -/
def digitsVal (l : List Char) : Option ℕ :=
  if l.isEmpty then none
  else if l.all isDig then some (l.foldl (fun a ch => 10 * a + (ch.toNat - 48)) 0)
  else none

/-- Python `int(s)`: optional surrounding whitespace, an optional sign,
then at least one decimal digit; anything else raises `ValueError`
(modelled as `none`). -/
def pyInt (l : List Char) : Option ℤ :=
  let s := stripWS l
  if s.isEmpty then none
  else if s.headD ' ' = '-' then (digitsVal s.tail).map (fun n => -(n : ℤ))
  else if s.headD ' ' = '+' then (digitsVal s.tail).map (fun n => (n : ℤ))
  else (digitsVal s).map (fun n => (n : ℤ))

/-- The edge-copying loop of `write_pajek` (helper.py:50-53): for each
line of `edgelist.split('\n')`, stop as soon as a line has no space
character (`len(line.split(' ')) == 1`); otherwise unpack the line into
exactly three space-separated fields (else `ValueError`), parse the
first two as ints (else `ValueError`), and emit the output line with
both ids shifted up by one.  In the Python code each line is written to
the file as produced, so an exception leaves a partial file; here the
error discards the lines, which no checked claim depends on. -/
def processLines : List (List Char) → Except String (List (List Char))
  | [] => Except.ok []
  | l :: rest =>
    if (pySplit ' ' l).length = 1 then Except.ok []
    else
      match pySplit ' ' l with
      | [u, v, w] =>
        match pyInt u, pyInt v with
        | some ui, some vi =>
          match processLines rest with
          | Except.error e => Except.error e
          | Except.ok tail =>
            Except.ok ((intStr (ui + 1) ++ ' ' :: (intStr (vi + 1) ++ ' ' :: w)) :: tail)
        | _, _ => Except.error "ValueError: invalid literal for int"
      | _ => Except.error "ValueError: unpack"

/-- The `*Vertices N` header line (helper.py:46). -/
def pajekHeader (N : ℕ) : List Char :=
  '*' :: 'V' :: 'e' :: 'r' :: 't' :: 'i' :: 'c' :: 'e' :: 's' :: ' ' :: natStr N

/-- One vertex line `i+1 "i"` (helper.py:47-48). -/
def pajekVertexLine (i : ℕ) : List Char :=
  natStr (i + 1) ++ ' ' :: '"' :: (natStr i ++ ['"'])

/-- The `N` vertex lines (helper.py:47-48). -/
def pajekVertexLines (N : ℕ) : List (List Char) := (List.range N).map pajekVertexLine

/-- The `*Edges ` marker line, with the trailing space the code writes
(helper.py:49). -/
def pajekMarker : List Char := ['*', 'E', 'd', 'g', 'e', 's', ' ']

/-- helper.py:44-53, `write_pajek`, as the list of lines written (each
`f.write` ends with a newline). -/
def write_pajek (obj_count : ℕ) (edgelist : List Char) : Except String (List (List Char)) :=
  match processLines (pySplit '\n' edgelist) with
  | Except.error e => Except.error e
  | Except.ok el =>
    Except.ok (pajekHeader obj_count :: (pajekVertexLines obj_count ++ pajekMarker :: el))

/-- helper.py:40-42, `write_ncol`: the edge-list string is written
verbatim. -/
def write_ncol (edgelist : List Char) : List Char := edgelist

/-- One line of the `edgelist` string built in `main`
(mknn.py:190-191): `'%s %s %s\n' % edge`, without its final newline.
The weight is kept as the character string `repr` of the float. -/
def edgeLine (e : ℕ × ℕ × List Char) : List Char :=
  natStr e.1 ++ ' ' :: (natStr e.2.1 ++ ' ' :: e.2.2)

/-- The full `edgelist` string of `main` (mknn.py:186-191): every edge
line followed by a newline, concatenated. -/
def serializeEdges (es : List (ℕ × ℕ × List Char)) : List Char :=
  (es.map (fun e => edgeLine e ++ ['\n'])).flatten

/-- The pajek output line of an edge: both ids shifted to one-based,
the weight string copied verbatim (helper.py:53). -/
def renderEdge (e : ℕ × ℕ × List Char) : List Char :=
  natStr (e.1 + 1) ++ ' ' :: (natStr (e.2.1 + 1) ++ ' ' :: e.2.2)

/-! ### Lemmas about splitting and number formatting -/

theorem pySplit_exists_cons (c : Char) (l : List Char) :
    ∃ r rs, pySplit c l = r :: rs := by
  induction l with
  | nil => exact ⟨[], [], rfl⟩
  | cons x xs ih =>
    obtain ⟨r, rs, h⟩ := ih
    by_cases hx : x = c
    · exact ⟨[], r :: rs, by simp [pySplit, h, hx]⟩
    · exact ⟨x :: r, rs, by simp [pySplit, h, hx]⟩

theorem pySplit_eq_single {c : Char} {l : List Char} (h : c ∉ l) :
    pySplit c l = [l] := by
  induction l with
  | nil => rfl
  | cons x xs ih =>
    have hx : ¬x = c := fun he => h (he ▸ List.mem_cons_self x xs)
    have hxs : c ∉ xs := fun hc => h (List.mem_cons_of_mem x hc)
    simp [pySplit, ih hxs, hx]

theorem pySplit_append {c : Char} {l1 l2 : List Char} (h : c ∉ l1) :
    pySplit c (l1 ++ c :: l2) = l1 :: pySplit c l2 := by
  induction l1 with
  | nil =>
    obtain ⟨r, rs, hr⟩ := pySplit_exists_cons c l2
    simp [pySplit, hr]
  | cons x xs ih =>
    have hx : ¬x = c := fun he => h (he ▸ List.mem_cons_self x xs)
    have hxs : c ∉ xs := fun hc => h (List.mem_cons_of_mem x hc)
    rw [List.cons_append]
    show pySplit c (x :: (xs ++ c :: l2)) = (x :: xs) :: pySplit c l2
    simp only [pySplit, ih hxs]
    simp [hx]

theorem digCh_mem (d : ℕ) : digCh d ∈ decChars := by
  unfold digCh
  by_cases h : d < decChars.length
  · rw [List.getD_eq_getElem _ _ h]
    exact List.getElem_mem h
  · rw [List.getD_eq_default _ _ (by omega)]
    decide

theorem digCh_toNat (d : ℕ) (h : d < 10) : (digCh d).toNat = 48 + d := by
  interval_cases d <;> rfl

theorem natStr_mem {n : ℕ} : ∀ ch ∈ natStr n, ch ∈ decChars := by
  intro ch hch
  unfold natStr at hch
  by_cases h : n = 0
  · rw [if_pos h] at hch
    simp at hch
    subst hch
    decide
  · rw [if_neg h] at hch
    rw [List.mem_reverse] at hch
    obtain ⟨d, _, hd⟩ := List.mem_map.mp hch
    exact hd ▸ digCh_mem d

theorem decChars_props : ∀ ch ∈ decChars,
    ch ∉ pyWS ∧ ch ≠ '-' ∧ ch ≠ '+' ∧ ch ≠ ' ' ∧ ch ≠ '\n' ∧ isDig ch = true := by decide

theorem natStr_ne_nil (n : ℕ) : natStr n ≠ [] := by
  unfold natStr
  by_cases h : n = 0
  · simp [h]
  · rw [if_neg h]
    simp [Nat.digits_ne_nil_iff_ne_zero.mpr h]

theorem dropWS_eq_self (l : List Char) (h : ∀ ch ∈ l, ch ∉ pyWS) :
    l.dropWhile (fun ch => decide (ch ∈ pyWS)) = l := by
  cases l with
  | nil => rfl
  | cons x xs =>
    rw [List.dropWhile_cons]
    simp [h x (List.mem_cons_self x xs)]

theorem stripWS_eq_self (l : List Char) (h : ∀ ch ∈ l, ch ∉ pyWS) :
    stripWS l = l := by
  unfold stripWS
  rw [dropWS_eq_self l h, dropWS_eq_self l.reverse (fun ch hch => h ch (List.mem_reverse.mp hch)),
    List.reverse_reverse]

theorem foldr_digits (L : List ℕ) (hL : ∀ d ∈ L, d < 10) :
    L.foldr (fun d a => 10 * a + ((digCh d).toNat - 48)) 0 = Nat.ofDigits 10 L := by
  induction L with
  | nil => rfl
  | cons d L ih =>
    rw [List.foldr_cons, ih (fun x hx => hL x (List.mem_cons_of_mem d hx)),
      digCh_toNat d (hL d (List.mem_cons_self d L)), Nat.ofDigits_cons]
    omega

theorem natStr_foldl (n : ℕ) :
    (natStr n).foldl (fun a ch => 10 * a + (ch.toNat - 48)) 0 = n := by
  unfold natStr
  by_cases h : n = 0
  · simp [h]
  · rw [if_neg h, List.foldl_reverse, List.foldr_map,
      foldr_digits _ (fun d hd => Nat.digits_lt_base (by norm_num) hd), Nat.ofDigits_digits]

theorem pyInt_natStr (n : ℕ) : pyInt (natStr n) = some (n : ℤ) := by
  have hmem := @natStr_mem n
  have hstrip : stripWS (natStr n) = natStr n :=
    stripWS_eq_self _ (fun ch hch => (decChars_props ch (hmem ch hch)).1)
  have hdv : digitsVal (natStr n) = some n := by
    unfold digitsVal
    rw [if_neg (by simp [natStr_ne_nil n]), if_pos, natStr_foldl]
    exact List.all_eq_true.mpr (fun ch hch => (decChars_props ch (hmem ch hch)).2.2.2.2.2)
  obtain ⟨ch, rest, hcr⟩ : ∃ ch rest, natStr n = ch :: rest := by
    cases hn : natStr n with
    | nil => exact absurd hn (natStr_ne_nil n)
    | cons a b => exact ⟨a, b, rfl⟩
  have hch : ch ∈ decChars := hmem ch (hcr ▸ List.mem_cons_self ch rest)
  unfold pyInt
  rw [hstrip, hcr]
  simp only [List.isEmpty_cons, List.headD_cons, List.tail_cons]
  rw [if_neg (by simp), if_neg (decChars_props ch hch).2.1,
    if_neg (decChars_props ch hch).2.2.1, ← hcr, hdv]
  rfl

theorem intStr_add_one (n : ℕ) : intStr ((n : ℤ) + 1) = natStr (n + 1) := by
  have ht : ((n : ℤ) + 1).toNat = n + 1 := by omega
  unfold intStr
  rw [if_neg (by omega), ht]

theorem space_not_in_natStr (n : ℕ) : ' ' ∉ natStr n :=
  fun h => absurd (natStr_mem _ h) (by decide)

theorem newline_not_in_natStr (n : ℕ) : '\n' ∉ natStr n :=
  fun h => absurd (natStr_mem _ h) (by decide)

theorem pySplit_edgeLine (e : ℕ × ℕ × List Char) (hw : ' ' ∉ e.2.2) :
    pySplit ' ' (edgeLine e) = [natStr e.1, natStr e.2.1, e.2.2] := by
  unfold edgeLine
  rw [pySplit_append (space_not_in_natStr e.1), pySplit_append (space_not_in_natStr e.2.1),
    pySplit_eq_single hw]

theorem newline_not_in_edgeLine (e : ℕ × ℕ × List Char) (hw : '\n' ∉ e.2.2) :
    '\n' ∉ edgeLine e := by
  unfold edgeLine
  intro h
  rcases List.mem_append.mp h with h1 | h1
  · exact newline_not_in_natStr _ h1
  · rcases List.mem_cons.mp h1 with h2 | h2
    · exact absurd h2 (by decide)
    · rcases List.mem_append.mp h2 with h3 | h3
      · exact newline_not_in_natStr _ h3
      · rcases List.mem_cons.mp h3 with h4 | h4
        · exact absurd h4 (by decide)
        · exact hw h4

theorem pySplit_serialize (es : List (ℕ × ℕ × List Char))
    (hw : ∀ e ∈ es, ' ' ∉ e.2.2 ∧ '\n' ∉ e.2.2) :
    pySplit '\n' (serializeEdges es) = es.map edgeLine ++ [[]] := by
  induction es with
  | nil => rfl
  | cons e es ih =>
    have hrest : ∀ e ∈ es, ' ' ∉ e.2.2 ∧ '\n' ∉ e.2.2 :=
      fun x hx => hw x (List.mem_cons_of_mem e hx)
    have hline : '\n' ∉ edgeLine e :=
      newline_not_in_edgeLine e (hw e (List.mem_cons_self e es)).2
    show pySplit '\n' ((edgeLine e ++ ['\n']) ++ serializeEdges es) = _
    rw [List.append_assoc, List.singleton_append, pySplit_append hline, ih hrest]
    rfl

theorem processLines_serialized (es : List (ℕ × ℕ × List Char))
    (hw : ∀ e ∈ es, ' ' ∉ e.2.2 ∧ '\n' ∉ e.2.2) :
    processLines (es.map edgeLine ++ [[]]) = Except.ok (es.map renderEdge) := by
  induction es with
  | nil =>
    show processLines [[]] = Except.ok []
    rfl
  | cons e es ih =>
    have hrest : ∀ e ∈ es, ' ' ∉ e.2.2 ∧ '\n' ∉ e.2.2 :=
      fun x hx => hw x (List.mem_cons_of_mem e hx)
    have hsp := pySplit_edgeLine e (hw e (List.mem_cons_self e es)).1
    show processLines (edgeLine e :: (es.map edgeLine ++ [[]])) = _
    simp only [processLines, hsp, List.length_cons, List.length_nil]
    rw [if_neg (by omega)]
    simp only [pyInt_natStr, ih hrest, intStr_add_one]
    rfl

theorem count_newlines (es : List (ℕ × ℕ × List Char))
    (hw : ∀ e ∈ es, ' ' ∉ e.2.2 ∧ '\n' ∉ e.2.2) :
    (serializeEdges es).count '\n' = es.length := by
  induction es with
  | nil => rfl
  | cons e es ih =>
    have hrest : ∀ e ∈ es, ' ' ∉ e.2.2 ∧ '\n' ∉ e.2.2 :=
      fun x hx => hw x (List.mem_cons_of_mem e hx)
    have hline : '\n' ∉ edgeLine e :=
      newline_not_in_edgeLine e (hw e (List.mem_cons_self e es)).2
    show ((edgeLine e ++ ['\n']) ++ serializeEdges es).count '\n' = es.length + 1
    rw [List.count_append, List.count_append, ih hrest,
      List.count_eq_zero.mpr hline]
    simp [Nat.add_comm]

/-- C8: on the edge-list string `main` builds (each edge line is
`id id weight` with space-free, newline-free weight strings, terminated
by a newline), the pajek writer succeeds and emits the `*Vertices N`
header, then exactly `N` vertex lines `i+1 "i"`, then the `*Edges `
marker, then one line `u+1 v+1 w` per aggregated edge in order — so
the pajek edge-line count equals the edge-list length, as does the
ncol newline (line) count. -/
theorem pajek_shape (N : ℕ) (es : List (ℕ × ℕ × List Char))
    (hw : ∀ e ∈ es, ' ' ∉ e.2.2 ∧ '\n' ∉ e.2.2) :
    write_pajek N (serializeEdges es) =
      Except.ok (pajekHeader N :: (pajekVertexLines N ++ pajekMarker :: es.map renderEdge)) ∧
    (pajekVertexLines N).length = N ∧
    (es.map renderEdge).length = es.length ∧
    (write_ncol (serializeEdges es)).count '\n' = es.length := by
  refine ⟨?_, by simp [pajekVertexLines], by simp, count_newlines es hw⟩
  unfold write_pajek
  rw [pySplit_serialize es hw, processLines_serialized es hw]

theorem pajek_shape_witness :
    write_pajek 2 (serializeEdges [(0, 1, ['0', '.', '5'])]) =
      Except.ok (pajekHeader 2 ::
        (pajekVertexLines 2 ++ pajekMarker :: [(0, 1, ['0', '.', '5'])].map renderEdge)) ∧
    (pajekVertexLines 2).length = 2 ∧
    ([(0, 1, ['0', '.', '5'])].map renderEdge).length = 1 ∧
    (write_ncol (serializeEdges [(0, 1, ['0', '.', '5'])])).count '\n' = 1 :=
  pajek_shape 2 [(0, 1, ['0', '.', '5'])] (by decide)

/-! ### C10: the edge-copying loop of the pajek writer -/

theorem two_le_pySplit_length {c : Char} {l : List Char} (h : c ∈ l) :
    2 ≤ (pySplit c l).length := by
  induction l with
  | nil => simp at h
  | cons x xs ih =>
    obtain ⟨r, rs, hr⟩ := pySplit_exists_cons c xs
    by_cases hx : x = c
    · have he : pySplit c (x :: xs) = [] :: r :: rs := by simp [pySplit, hr, hx]
      rw [he]
      simp [Nat.succ_le_succ]
    · have hm : c ∈ xs := by
        rcases List.mem_cons.mp h with h1 | h1
        · exact absurd h1.symm hx
        · exact h1
      have h2 := ih hm
      have he : pySplit c (x :: xs) = (x :: r) :: rs := by simp [pySplit, hr, hx]
      rw [he]
      rw [hr] at h2
      simpa using h2

theorem pySplit_length_one_iff (c : Char) (l : List Char) :
    (pySplit c l).length = 1 ↔ c ∉ l := by
  constructor
  · intro h hc
    have := two_le_pySplit_length hc
    omega
  · intro h
    rw [pySplit_eq_single h]
    rfl

theorem break_pred_eq :
    (fun l => !((pySplit ' ' l).length == 1)) = (fun l : List Char => decide (' ' ∈ l)) := by
  funext l
  by_cases h : ' ' ∈ l
  · have : (pySplit ' ' l).length ≠ 1 := fun he => (pySplit_length_one_iff ' ' l).mp he h
    simp [h, this]
  · have := (pySplit_length_one_iff ' ' l).mpr h
    simp [h, this]

theorem processLines_takeWhile (ls : List (List Char)) :
    processLines ls =
      processLines (ls.takeWhile (fun l => !((pySplit ' ' l).length == 1))) := by
  induction ls with
  | nil => rfl
  | cons l rest ih =>
    rw [List.takeWhile_cons]
    by_cases hb : (pySplit ' ' l).length = 1
    · have hpred : (!((pySplit ' ' l).length == 1)) = false := by simp [hb]
      rw [hpred]
      simp [processLines, hb]
    · have hpred : (!((pySplit ' ' l).length == 1)) = true := by simp [hb]
      rw [hpred]
      simp only [processLines, if_neg hb]
      rw [← ih]

theorem processLines_ok_iff (ls : List (List Char)) :
    (∃ out, processLines ls = Except.ok out) ↔
      ∀ l ∈ ls.takeWhile (fun l => !((pySplit ' ' l).length == 1)),
        ∃ u v w, pySplit ' ' l = [u, v, w] ∧ (pyInt u).isSome ∧ (pyInt v).isSome := by
  induction ls with
  | nil => simp [processLines]
  | cons l rest ih =>
    rw [List.takeWhile_cons]
    by_cases hb : (pySplit ' ' l).length = 1
    · have hpred : (!((pySplit ' ' l).length == 1)) = false := by simp [hb]
      rw [hpred]
      constructor
      · intro _
        simp
      · intro _
        exact ⟨[], by simp [processLines, hb]⟩
    · have hpred : (!((pySplit ' ' l).length == 1)) = true := by simp [hb]
      rw [hpred, if_pos rfl, List.forall_mem_cons]
      constructor
      · rintro ⟨out, hout⟩
        rcases hsp : pySplit ' ' l with _ | ⟨u, _ | ⟨v, _ | ⟨w, _ | ⟨x, tl⟩⟩⟩⟩
        · simp [processLines, hb, hsp] at hout
        · rw [hsp] at hb
          simp at hb
        · simp [processLines, hb, hsp] at hout
        · rcases hu : pyInt u with _ | ui
          · simp [processLines, hb, hsp, hu] at hout
          · rcases hv : pyInt v with _ | vi
            · simp [processLines, hb, hsp, hu, hv] at hout
            · rcases hpr : processLines rest with e | tail
              · simp [processLines, hb, hsp, hu, hv, hpr] at hout
              · exact ⟨⟨u, v, w, rfl, by simp [hu], by simp [hv]⟩, ih.mp ⟨tail, hpr⟩⟩
        · simp [processLines, hb, hsp] at hout
      · rintro ⟨⟨u, v, w, hsp, hu, hv⟩, hrest⟩
        obtain ⟨ui, hui⟩ := Option.isSome_iff_exists.mp hu
        obtain ⟨vi, hvi⟩ := Option.isSome_iff_exists.mp hv
        obtain ⟨tail, hpr⟩ := ih.mpr hrest
        refine ⟨(intStr (ui + 1) ++ ' ' :: (intStr (vi + 1) ++ ' ' :: w)) :: tail, ?_⟩
        simp [processLines, hb, hsp, hui, hvi, hpr]

/-- C10: the pajek edge-copying loop ignores everything from the first
line of the split edge-list string that contains no space character on
(for a normal newline-terminated edge list that is the trailing empty
piece, so all edges are copied — see the C8 theorem — but lines after
an embedded blank line are silently discarded); and it runs without
error precisely when every line before that point splits into exactly
three space-separated fields whose first two parse as Python ints. -/
theorem pajek_break_semantics (s : List Char) :
    processLines (pySplit '\n' s) =
      processLines ((pySplit '\n' s).takeWhile (fun l => decide (' ' ∈ l))) ∧
    ((∃ out, processLines (pySplit '\n' s) = Except.ok out) ↔
      ∀ l ∈ (pySplit '\n' s).takeWhile (fun l => decide (' ' ∈ l)),
        ∃ u v w, pySplit ' ' l = [u, v, w] ∧ (pyInt u).isSome ∧ (pyInt v).isSome) ∧
    (∀ N, (∃ out, write_pajek N s = Except.ok out) ↔
      ∃ out, processLines (pySplit '\n' s) = Except.ok out) := by
  refine ⟨?_, ?_, fun N => ?_⟩
  · rw [← break_pred_eq]
    exact processLines_takeWhile _
  · rw [← break_pred_eq]
    exact processLines_ok_iff _
  · unfold write_pajek
    rcases h : processLines (pySplit '\n' s) with e | el <;> simp

theorem pajek_break_semantics_witness :
    processLines (pySplit '\n' ['1', ' ', '2', ' ', 'x', '\n', '\n', 'z', ' ', 'q']) =
      processLines ((pySplit '\n' ['1', ' ', '2', ' ', 'x', '\n', '\n', 'z', ' ', 'q']).takeWhile
        (fun l => decide (' ' ∈ l))) ∧
    ((∃ out, processLines (pySplit '\n' ['1', ' ', '2', ' ', 'x', '\n', '\n', 'z', ' ', 'q']) =
        Except.ok out) ↔
      ∀ l ∈ (pySplit '\n' ['1', ' ', '2', ' ', 'x', '\n', '\n', 'z', ' ', 'q']).takeWhile
          (fun l => decide (' ' ∈ l)),
        ∃ u v w, pySplit ' ' l = [u, v, w] ∧ (pyInt u).isSome ∧ (pyInt v).isSome) ∧
    (∀ N, (∃ out, write_pajek N ['1', ' ', '2', ' ', 'x', '\n', '\n', 'z', ' ', 'q'] =
        Except.ok out) ↔
      ∃ out, processLines (pySplit '\n' ['1', ' ', '2', ' ', 'x', '\n', '\n', 'z', ' ', 'q']) =
        Except.ok out) :=
  pajek_break_semantics ['1', ' ', '2', ' ', 'x', '\n', '\n', 'z', ' ', 'q']
